import Mathlib

/-!
Verification of the `fix-supabase-imports.py` migration script.

The script walks a fixed table of file paths, each tagged with an auth mode
("user" or "service"), and rewrites each file's text:
replace the legacy supabase import with a mode-specific import, then insert a
client-construction line after the first try-block opening (or after the
first `export async function` header when no two-space-indented try
exists).

Strings are modelled as `List Char` (`Str`); the filesystem is modelled as a
map from paths to optional contents.  Python's `str.replace`, the two
`re.sub`/`re.search` patterns (which are fixed literals in the script) and
the line-splitting scan are each translated into executable Lean functions
below, mirroring the source line by line.
-/

set_option maxRecDepth 100000

abbrev Str := List Char

/-- Python `\s` (ASCII range, the script's inputs are ASCII). -/
def wsChar (c : Char) : Bool :=
  c = ' ' || c = '\t' || c = '\n' || c = '\r' || c = '\x0b' || c = '\x0c'

/-- Python `\w` (ASCII range). -/
def wordChar (c : Char) : Bool :=
  c.isAlphanum || c = '_'

/-- Boolean string-prefix test. -/
def isPrefB : Str → Str → Bool
  | [], _ => true
  | _ :: _, [] => false
  | a :: as, b :: bs => a = b && isPrefB as bs

/-- Python's `pat in s` substring test. -/
def containsB (pat : Str) : Str → Bool
  | [] => isPrefB pat []
  | c :: rest => isPrefB pat (c :: rest) || containsB pat rest

/-- Number of positions of `s` at which `pat` starts. -/
def countOcc (pat : Str) : Str → Nat
  | [] => 0
  | c :: rest => (if isPrefB pat (c :: rest) = true then 1 else 0) + countOcc pat rest

/-- No newline character occurs in `s`. -/
def nlFree (s : Str) : Bool := s.all (fun c => !(c = '\n'))

/-- For every suffix `a.drop i` (`i < a.length`), that suffix is not a prefix
of `b`.  Used to discharge the overlap side conditions by computation. -/
def dropsChk (a b : Str) : Bool :=
  match a with
  | [] => true
  | _ :: r => !(isPrefB a b) && dropsChk r b

/- ## The string constants of the script -/

def legacyImport : Str := "import \x7b supabase \x7d from \x27@/lib/supabase\x27".data

def userImport : Str := "import \x7b createClient \x7d from \x27@/utils/supabase/server\x27".data

def serviceImport : Str :=
  "import \x7b createServiceRoleClient \x7d from \x27@/utils/supabase/service-role\x27".data

def userTryIns : Str := "    const supabase = await createClient()\n".data

def userFnIns : Str := "  const supabase = await createClient()\n".data

def serviceTryIns : Str := "    const supabase = createServiceRoleClient()\n".data

def serviceFnIns : Str := "  const supabase = createServiceRoleClient()\n".data

def supaDot : Str := "supabase.".data

def tryLit : Str := "try \x7b\n".data

def twoSpTry : Str := "  try \x7b".data

def exportAsyncFnLit : Str := "export async function".data

def exportFnLit : Str := "export function".data

def asyncHdrLit : Str := "export async function ".data

def closeLit : Str := ") \x7b\n".data

def userS : Str := "user".data

def serviceS : Str := "service".data

/- ## Python str.replace -/

/-- Worker for `replaceAll`, structurally recursive on a fuel bound on the
string length (so that it evaluates inside the kernel). -/
def replaceAllGo (needle repl : Str) : Nat → Str → Str
  | _, [] => []
  | 0, s => s
  | fuel + 1, c :: rest =>
    if isPrefB needle (c :: rest) = true then
      repl ++ replaceAllGo needle repl fuel (rest.drop (needle.length - 1))
    else
      c :: replaceAllGo needle repl fuel rest

/-- Python `s.replace(needle, repl)`: scan left to right, replacing each
non-overlapping occurrence.  (The script's needle is never empty; for an
empty needle this definition differs from Python and is unused.) -/
def replaceAll (needle repl : Str) (s : Str) : Str :=
  replaceAllGo needle repl s.length s

/- ## The usage-pattern search `re.search(r'(\n\s+)(.*?)(await )?supabase\.', c)`

A match of the tail `(.*?)(await )?supabase\.` exists at a position iff some
run of non-newline characters followed by `supabase.` starts there (the
optional `await ` group is itself newline-free and followed by `supabase.`,
so it never affects match existence or the match start). -/

def usageTail : Str → Bool
  | [] => false
  | c :: r => isPrefB supaDot (c :: r) || (if c = '\n' then false else usageTail r)

/-- Matches `\s*` then the tail pattern (the part of `\s+` beyond its first
character, followed by `(.*?)(await )?supabase\.`). -/
def wsThen : Str → Bool
  | [] => false
  | c :: r => usageTail (c :: r) || (wsChar c && wsThen r)

/-- Matches `\s+(.*?)(await )?supabase\.` at the start of the argument. -/
def afterNl : Str → Bool
  | [] => false
  | c :: r => wsChar c && wsThen r

/-- `match.start()` of the leftmost match of the usage pattern: the index of
the `\n` at which the whole pattern starts matching. -/
def findUsageStart : Str → Option Nat
  | [] => none
  | c :: rest =>
    if c = '\n' ∧ afterNl rest = true then some 0
    else (findUsageStart rest).map (· + 1)

/- ## content[:p].split('\n') and the backward function-declaration scan -/

/-- Python `s.split('\n')`. -/
def splitNl : Str → List Str
  | [] => [[]]
  | c :: rest =>
    if c = '\n' then [] :: splitNl rest
    else
      match splitNl rest with
      | [] => [[c]]
      | h :: t => (c :: h) :: t

/-- The backward scan over the lines preceding the match: the insertion step
runs iff some such line contains `export async function` or
`export function`. -/
def anyExportLine (pre : Str) : Bool :=
  (splitNl pre).any (fun l => containsB exportAsyncFnLit l || containsB exportFnLit l)

/- ## `re.sub(r'(\n\s+try \{\n)', r'\1' + ins, c, count=1)`

At a given `\n`, `\s+` greedily takes the maximal whitespace run; since `t`
is not whitespace, the run is followed by `try {\n` exactly when the maximal
run is (no backtracking case survives). -/

def leadWs : Str → Nat
  | [] => 0
  | c :: r => if wsChar c then leadWs r + 1 else 0

def tryMatchAt (t : Str) : Bool :=
  decide (1 ≤ leadWs t) && isPrefB tryLit (t.drop (leadWs t))

/-- Match of the try-pattern at position 0: the matched text (ending in
`try {\n`) and the remainder. -/
def trySplit : Str → Option (Str × Str)
  | [] => none
  | c :: rest =>
    if c = '\n' ∧ tryMatchAt rest = true then
      some ('\n' :: (rest.take (leadWs rest) ++ tryLit), rest.drop (leadWs rest + tryLit.length))
    else none

/-- Insert `ins` after the first (leftmost) match of `\n\s+try \{\n`. -/
def subTry (ins : Str) : Str → Str
  | [] => []
  | c :: rest =>
    match trySplit (c :: rest) with
    | some (a, b) => a ++ ins ++ b
    | none => c :: subTry ins rest

/- ## `re.sub(r'(export async function \w+\([^)]*\) \{\n)', r'\1' + ins, c, count=1)` -/

def countWord : Str → Nat
  | [] => 0
  | c :: r => if wordChar c then countWord r + 1 else 0

def countNonR : Str → Nat
  | [] => 0
  | c :: r => if c = ')' then 0 else countNonR r + 1

/-- Match of the function-header pattern at position 0: `\w+` greedily takes
the maximal word run (forced, since `(` is not a word character), `[^)]*`
takes everything up to the first `)` (forced).  Returns the matched text
(ending in `) {\n`) and the remainder. -/
def funcSplit (s : Str) : Option (Str × Str) :=
  if isPrefB asyncHdrLit s = true then
    let t1 := s.drop asyncHdrLit.length
    let w := countWord t1
    if 1 ≤ w ∧ isPrefB ['('] (t1.drop w) = true then
      let t2 := t1.drop (w + 1)
      let n := countNonR t2
      if isPrefB closeLit (t2.drop n) = true then
        some (s.take (asyncHdrLit.length + w + 1 + n) ++ closeLit, t2.drop (n + closeLit.length))
      else none
    else none
  else none

/-- Insert `ins` after the first match of the function-header pattern. -/
def subFunc (ins : Str) : Str → Str
  | [] => []
  | c :: rest =>
    match funcSplit (c :: rest) with
    | some (a, b) => a ++ ins ++ b
    | none => c :: subFunc ins rest

/-- True iff the try-pattern matches somewhere in `s`. -/
def hasTryMatch : Str → Bool
  | [] => false
  | c :: rest => (trySplit (c :: rest)).isSome || hasTryMatch rest

/-- True iff the function-header pattern matches somewhere in `s`. -/
def hasFuncMatch : Str → Bool
  | [] => false
  | c :: rest => (funcSplit (c :: rest)).isSome || hasFuncMatch rest

/- ## fix_file -/

/-- The four per-file console reports of `fix_file`. -/
inductive Msg where
  | notFound
  | alreadyFixed
  | fixed
  | couldNotFix
deriving DecidableEq, Repr

/-- Result of one `fix_file` call: return value, the content written back
(if any), and the report printed. -/
structure FixResult where
  ok : Bool
  written : Option Str
  msg : Msg
deriving DecidableEq, Repr

/-- The mode-specific replacement import. -/
def importFor (auth : Str) : Str :=
  if auth = userS then userImport else serviceImport

/-- The in-memory transformation of `fix_file` on a file whose content
contains the legacy import: the `auth_type == 'user'` / `'service'`
branches (lines 47-117 of the script). -/
def applyAuth (auth : Str) (content : Str) : Str :=
  if auth = userS then
    let c1 := replaceAll legacyImport userImport content
    match findUsageStart c1 with
    | some p =>
      if anyExportLine (c1.take p) = true then
        if containsB twoSpTry c1 = true then subTry userTryIns c1
        else subFunc userFnIns c1
      else c1
    | none => c1
  else if auth = serviceS then
    let c1 := replaceAll legacyImport serviceImport content
    match findUsageStart c1 with
    | some p =>
      if anyExportLine (c1.take p) = true then
        if containsB twoSpTry c1 = true then subTry serviceTryIns c1
        else subFunc serviceFnIns c1
      else c1
    | none => c1
  else content

/-- `fix_file(filepath, auth_type)`.  The filesystem read is abstracted to
the optional content `file` (`none` = the path does not exist). -/
def fixFile (file : Option Str) (auth : Str) : FixResult :=
  match file with
  | none => ⟨false, none, Msg.notFound⟩
  | some content =>
    if containsB legacyImport content = true then
      let c2 := applyAuth auth content
      if c2 = content then ⟨false, none, Msg.couldNotFix⟩
      else ⟨true, some c2, Msg.fixed⟩
    else ⟨true, none, Msg.alreadyFixed⟩

/- ## The driver loop -/

/-- Filesystem update after one task: record the written content, if any. -/
def updFs (fs : Str → Option Str) (p : Str) (r : FixResult) : Str → Option Str :=
  match r.written with
  | some c => fun q => if q = p then some c else fs q
  | none => fs

/-- The `for filepath, auth_type in files_to_fix.items()` loop: returns
`(fixed_count, failed_count)`. -/
def runAll : List (Str × Str) → (Str → Option Str) → Nat × Nat
  | [], _ => (0, 0)
  | (p, a) :: rest, fs =>
    let r := fixFile (fs p) a
    let t := runAll rest (updFs fs p r)
    if r.ok then (t.1 + 1, t.2) else (t.1, t.2 + 1)

/-- The filesystem state after a list of tasks has been processed. -/
def threadFs : List (Str × Str) → (Str → Option Str) → (Str → Option Str)
  | [], fs => fs
  | (p, a) :: rest, fs => threadFs rest (updFs fs p (fixFile (fs p) a))

/-- The static `files_to_fix` table (insertion order of the Python dict). -/
def filesToFix : List (Str × Str) :=
  [("app/api/debug/env-check/route.ts".data, "service".data),
   ("app/api/health/route.ts".data, "service".data),
   ("app/api/metrics/route.ts".data, "service".data),
   ("app/api/webhooks/stripe/route.ts".data, "service".data),
   ("app/api/webhooks/crossmint/route.ts".data, "service".data),
   ("app/api/stripe/connect-webhook/route.ts".data, "service".data),
   ("app/api/cron/weekly-payouts/route.ts".data, "service".data),
   ("app/api/payment/create-crossmint-order/route.ts".data, "user".data),
   ("app/api/payment/create-payment-intent/route.ts".data, "user".data),
   ("app/api/payment/create-stripe-session/route.ts".data, "user".data),
   ("app/api/payment/manual-complete/route.ts".data, "user".data),
   ("app/api/payment/update-transaction/route.ts".data, "user".data),
   ("app/api/profile/verify-email/route.ts".data, "user".data),
   ("app/api/stripe/account-balance/route.ts".data, "user".data),
   ("app/api/stripe/account-session/route.ts".data, "user".data),
   ("app/api/stripe/connect-account/route.ts".data, "user".data),
   ("app/api/stripe/create-transfer/route.ts".data, "user".data),
   ("app/api/wallet/transactions/route.ts".data, "user".data),
   ("app/api/payouts/request/route.ts".data, "user".data),
   ("app/api/payouts/status/route.ts".data, "user".data)]

/- ## Prefix and substring toolkit -/

theorem prefB_iff (p : Str) : ∀ s, isPrefB p s = true ↔ ∃ t, s = p ++ t := by
  induction p with
  | nil => intro s; simp [isPrefB]
  | cons a as ih =>
    intro s
    cases s with
    | nil => simp [isPrefB]
    | cons b bs =>
      simp only [isPrefB, Bool.and_eq_true, decide_eq_true_eq, ih, List.cons_append]
      constructor
      · rintro ⟨rfl, t, rfl⟩
        exact ⟨t, rfl⟩
      · rintro ⟨t, h⟩
        injection h with h1 h2
        exact ⟨h1.symm, t, h2⟩

theorem prefB_refl (p : Str) : isPrefB p p = true :=
  (prefB_iff p p).mpr ⟨[], by simp⟩

theorem prefB_self_append (p t : Str) : isPrefB p (p ++ t) = true :=
  (prefB_iff p (p ++ t)).mpr ⟨t, rfl⟩

theorem prefB_length_le (p s : Str) (h : isPrefB p s = true) : p.length ≤ s.length := by
  obtain ⟨t, rfl⟩ := (prefB_iff p s).mp h
  simp

theorem prefB_append_right (p x y : Str) (h : isPrefB p x = true) :
    isPrefB p (x ++ y) = true := by
  obtain ⟨t, rfl⟩ := (prefB_iff p x).mp h
  exact (prefB_iff p _).mpr ⟨t ++ y, by simp⟩

theorem prefB_of_append_le : ∀ p u v : Str, isPrefB p (u ++ v) = true →
    p.length ≤ u.length → isPrefB p u = true := by
  intro p
  induction p with
  | nil => intro u v _ _; cases u <;> simp [isPrefB]
  | cons a as ih =>
    intro u v h hl
    cases u with
    | nil => simp at hl
    | cons b bs =>
      simp only [List.cons_append, isPrefB, Bool.and_eq_true, decide_eq_true_eq] at h
      obtain ⟨rfl, h2⟩ := h
      simp only [isPrefB, Bool.and_eq_true, decide_eq_true_eq]
      exact ⟨by trivial, ih bs v h2 (by simpa using hl)⟩

theorem prefB_append_split : ∀ u p v : Str, isPrefB p (u ++ v) = true →
    u.length ≤ p.length →
    isPrefB u p = true ∧ isPrefB (p.drop u.length) v = true := by
  intro u
  induction u with
  | nil => intro p v h _; simpa [isPrefB] using h
  | cons b bs ih =>
    intro p v h hl
    cases p with
    | nil => simp at hl
    | cons a as =>
      simp only [List.cons_append, isPrefB, Bool.and_eq_true, decide_eq_true_eq] at h
      obtain ⟨hba, h2⟩ := h
      have := ih as v h2 (by simpa using hl)
      simp only [isPrefB, Bool.and_eq_true, decide_eq_true_eq, List.length_cons, List.drop_succ_cons]
      exact ⟨⟨hba.symm, this.1⟩, this.2⟩

theorem containsB_iff (p : Str) : ∀ s, containsB p s = true ↔ ∃ i, isPrefB p (s.drop i) = true := by
  intro s
  induction s with
  | nil =>
    simp only [containsB]
    constructor
    · intro h; exact ⟨0, h⟩
    · rintro ⟨i, h⟩; simpa using h
  | cons c rest ih =>
    simp only [containsB, Bool.or_eq_true, ih]
    constructor
    · rintro (h | ⟨i, h⟩)
      · exact ⟨0, h⟩
      · exact ⟨i + 1, by simpa using h⟩
    · rintro ⟨i, h⟩
      cases i with
      | zero => exact Or.inl (by simpa using h)
      | succ i => exact Or.inr ⟨i, by simpa using h⟩

theorem containsB_nil_pat : ∀ s, containsB ([] : Str) s = true := by
  intro s
  cases s <;> simp [containsB, isPrefB]

theorem containsB_mono_l (p : Str) : ∀ u v, containsB p u = true → containsB p (u ++ v) = true := by
  intro u v h
  obtain ⟨i, hi⟩ := (containsB_iff p u).mp h
  rcases Nat.lt_or_ge i u.length with hlt | hge
  · refine (containsB_iff p (u ++ v)).mpr ⟨i, ?_⟩
    rw [List.drop_append_of_le_length (Nat.le_of_lt hlt)]
    exact prefB_append_right _ _ _ hi
  · have hd : u.drop i = [] := List.drop_eq_nil_of_le hge
    rw [hd] at hi
    have hp : p = [] := by
      cases p with
      | nil => rfl
      | cons x xs => simp [isPrefB] at hi
    rw [hp]
    exact containsB_nil_pat _

theorem containsB_mono_r (p : Str) : ∀ u v, containsB p v = true → containsB p (u ++ v) = true := by
  intro u
  induction u with
  | nil => intro v h; simpa using h
  | cons c u' ih =>
    intro v h
    simp only [List.cons_append, containsB, Bool.or_eq_true]
    exact Or.inr (ih v h)

theorem containsB_pref (p : Str) : ∀ s, isPrefB p s = true → containsB p s = true := by
  intro s h
  cases s with
  | nil => simpa [containsB] using h
  | cons c r => simp [containsB, h]

theorem containsB_of_decomp (p s u v : Str) (h : s = u ++ (p ++ v)) :
    containsB p s = true := by
  subst h
  exact containsB_mono_r p u (p ++ v) (containsB_pref p _ (prefB_self_append p v))

theorem lastQ_mem : ∀ (l : Str) (a : Char), l.getLast? = some a → a ∈ l := by
  intro l
  induction l with
  | nil => intro a h; simp at h
  | cons c t ih =>
    intro a h
    cases t with
    | nil =>
      simp at h
      simp [h]
    | cons d t' =>
      rw [List.getLast?_cons_cons] at h
      exact List.mem_cons_of_mem c (ih a h)

theorem lastQ_append : ∀ (A B : Str), B ≠ [] → (A ++ B).getLast? = B.getLast? := by
  intro A
  induction A with
  | nil => intro B _; simp
  | cons a A' ih =>
    intro B hB
    cases hA : A' ++ B with
    | nil =>
      exact absurd (List.append_eq_nil.mp hA).2 hB
    | cons x xs =>
      calc ((a :: A') ++ B).getLast? = (a :: x :: xs).getLast? := by rw [List.cons_append, hA]
        _ = (x :: xs).getLast? := List.getLast?_cons_cons
        _ = (A' ++ B).getLast? := by rw [hA]
        _ = B.getLast? := ih B hB

theorem lastQ_drop : ∀ (A : Str) (i : Nat), i < A.length → (A.drop i).getLast? = A.getLast? := by
  intro A
  induction A with
  | nil => intro i h; simp at h
  | cons a A' ih =>
    intro i h
    cases i with
    | zero => rfl
    | succ i' =>
      have hi' : i' < A'.length := by simpa using h
      rw [List.drop_succ_cons, ih i' hi']
      cases A' with
      | nil => simp at hi'
      | cons x xs => exact List.getLast?_cons_cons.symm

theorem nlFree_not_mem (p : Str) (h : nlFree p = true) (hm : '\n' ∈ p) : False := by
  rw [nlFree, List.all_eq_true] at h
  simpa using h '\n' hm

theorem containsB_append_nl (p : Str) (hnl : nlFree p = true) :
    ∀ A B : Str, A.getLast? = some '\n' →
      containsB p (A ++ B) = (containsB p A || containsB p B) := by
  intro A B hA
  by_cases h : containsB p (A ++ B) = true
  · rw [h]
    symm
    rw [Bool.or_eq_true]
    obtain ⟨i, hi⟩ := (containsB_iff p (A ++ B)).mp h
    rcases Nat.lt_or_ge i A.length with hiA | hiA
    · rw [List.drop_append_of_le_length (Nat.le_of_lt hiA)] at hi
      rcases Nat.lt_or_ge (A.drop i).length p.length with hlen | hlen
      · exfalso
        have hsp := prefB_append_split (A.drop i) p B hi (Nat.le_of_lt hlen)
        obtain ⟨t, ht⟩ := (prefB_iff (A.drop i) p).mp hsp.1
        have hlast : (A.drop i).getLast? = some '\n' := by rw [lastQ_drop A i hiA, hA]
        have hmem : '\n' ∈ p := by
          rw [ht]
          exact List.mem_append_left t (lastQ_mem _ _ hlast)
        exact nlFree_not_mem p hnl hmem
      · left
        refine (containsB_iff p A).mpr ⟨i, ?_⟩
        exact prefB_of_append_le p (A.drop i) B hi (by simpa using hlen)
    · right
      refine (containsB_iff p B).mpr ⟨i - A.length, ?_⟩
      have hd : (A ++ B).drop i = B.drop (i - A.length) := by
        rw [show i = A.length + (i - A.length) from by omega, List.drop_append]
        congr 1
        omega
      rwa [hd] at hi
  · have h' : containsB p (A ++ B) = false := by simpa using h
    rw [h']
    symm
    rw [Bool.or_eq_false_iff]
    constructor
    · by_contra hc
      rw [Bool.not_eq_false] at hc
      have ht := containsB_mono_l p A B hc
      rw [h'] at ht
      exact Bool.noConfusion ht
    · by_contra hc
      rw [Bool.not_eq_false] at hc
      have ht := containsB_mono_r p A B hc
      rw [h'] at ht
      exact Bool.noConfusion ht

/- ## Facts about replaceAll -/

theorem replaceAllGo_irrel (needle repl : Str) :
    ∀ f1 f2 s, s.length ≤ f1 → s.length ≤ f2 →
      replaceAllGo needle repl f1 s = replaceAllGo needle repl f2 s := by
  intro f1
  induction f1 with
  | zero =>
    intro f2 s hs _
    have : s = [] := List.eq_nil_of_length_eq_zero (Nat.le_zero.mp hs)
    subst this
    cases f2 <;> rfl
  | succ n ih =>
    intro f2 s hs1 hs2
    cases s with
    | nil => cases f2 <;> rfl
    | cons c rest =>
      cases f2 with
      | zero => simp at hs2
      | succ m =>
        have h1 : rest.length ≤ n := by simp at hs1; omega
        have h1' : rest.length ≤ m := by simp at hs2; omega
        have h2 : (rest.drop (needle.length - 1)).length ≤ n := by
          simp only [List.length_drop]
          omega
        have h2' : (rest.drop (needle.length - 1)).length ≤ m := by
          simp only [List.length_drop]
          omega
        simp only [replaceAllGo]
        rw [ih m _ h2 h2', ih m rest h1 h1']

theorem replaceAll_nil (needle repl : Str) : replaceAll needle repl [] = [] := rfl

theorem replaceAll_cons (needle repl : Str) (c : Char) (rest : Str) :
    replaceAll needle repl (c :: rest) =
      if isPrefB needle (c :: rest) = true then
        repl ++ replaceAll needle repl (rest.drop (needle.length - 1))
      else c :: replaceAll needle repl rest := by
  have e1 : replaceAllGo needle repl rest.length (rest.drop (needle.length - 1)) =
      replaceAll needle repl (rest.drop (needle.length - 1)) := by
    rw [replaceAll]
    exact replaceAllGo_irrel needle repl rest.length _ _
      (by simp only [List.length_drop]; omega) le_rfl
  rw [replaceAll]
  simp only [List.length_cons, replaceAllGo]
  rw [e1]
  rfl

theorem replaceAll_len_ge_aux (needle repl : Str) (hne : needle ≠ [])
    (hlen : needle.length ≤ repl.length) :
    ∀ N s, s.length ≤ N → s.length ≤ (replaceAll needle repl s).length := by
  intro N
  induction N with
  | zero =>
    intro s hs
    have : s = [] := List.eq_nil_of_length_eq_zero (Nat.le_zero.mp hs)
    subst this
    simp [replaceAll_nil]
  | succ n ih =>
    intro s hs
    cases s with
    | nil => simp [replaceAll_nil]
    | cons c rest =>
      rw [replaceAll_cons]
      have hn1 : 1 ≤ needle.length := List.length_pos.mpr hne
      by_cases hp : isPrefB needle (c :: rest) = true
      · rw [if_pos hp]
        have h1 := ih (rest.drop (needle.length - 1)) (by simp [List.length_drop]; simp at hs; omega)
        have h2 : needle.length ≤ (c :: rest).length := prefB_length_le _ _ hp
        simp only [List.length_append, List.length_drop, List.length_cons] at *
        omega
      · rw [if_neg hp]
        have h1 := ih rest (by simp at hs; omega)
        simp only [List.length_cons]
        omega

theorem replaceAll_len_ge (needle repl : Str) (hne : needle ≠ [])
    (hlen : needle.length ≤ repl.length) (s : Str) :
    s.length ≤ (replaceAll needle repl s).length :=
  replaceAll_len_ge_aux needle repl hne hlen s.length s le_rfl

theorem replaceAll_len_lt_aux (needle repl : Str) (hne : needle ≠ [])
    (hlt : needle.length < repl.length) :
    ∀ N s, s.length ≤ N → containsB needle s = true →
      s.length < (replaceAll needle repl s).length := by
  intro N
  induction N with
  | zero =>
    intro s hs hc
    have : s = [] := List.eq_nil_of_length_eq_zero (Nat.le_zero.mp hs)
    subst this
    cases hn : needle with
    | nil => exact absurd hn hne
    | cons x xs => rw [hn] at hc; simp [containsB, isPrefB] at hc
  | succ n ih =>
    intro s hs hc
    cases s with
    | nil =>
      cases hn : needle with
      | nil => exact absurd hn hne
      | cons x xs => rw [hn] at hc; simp [containsB, isPrefB] at hc
    | cons c rest =>
      rw [replaceAll_cons]
      have hn1 : 1 ≤ needle.length := List.length_pos.mpr hne
      by_cases hp : isPrefB needle (c :: rest) = true
      · rw [if_pos hp]
        have h1 := replaceAll_len_ge_aux needle repl hne (Nat.le_of_lt hlt)
          n (rest.drop (needle.length - 1)) (by simp [List.length_drop]; simp at hs; omega)
        have h2 : needle.length ≤ (c :: rest).length := prefB_length_le _ _ hp
        simp only [List.length_append, List.length_drop, List.length_cons] at *
        omega
      · rw [if_neg hp]
        have hc' : containsB needle rest = true := by
          simp only [containsB, Bool.or_eq_true] at hc
          cases hc with
          | inl h => exact absurd h hp
          | inr h => exact h
        have h1 := ih rest (by simp at hs; omega) hc'
        simp only [List.length_cons]
        omega

theorem replaceAll_len_lt (needle repl : Str) (hne : needle ≠ [])
    (hlt : needle.length < repl.length) (s : Str) (hc : containsB needle s = true) :
    s.length < (replaceAll needle repl s).length :=
  replaceAll_len_lt_aux needle repl hne hlt s.length s le_rfl hc

theorem replaceAll_has_repl_aux (needle repl : Str) (hne : needle ≠ []) :
    ∀ N s, s.length ≤ N → containsB needle s = true →
      containsB repl (replaceAll needle repl s) = true := by
  intro N
  induction N with
  | zero =>
    intro s hs hc
    have : s = [] := List.eq_nil_of_length_eq_zero (Nat.le_zero.mp hs)
    subst this
    cases hn : needle with
    | nil => exact absurd hn hne
    | cons x xs => rw [hn] at hc; simp [containsB, isPrefB] at hc
  | succ n ih =>
    intro s hs hc
    cases s with
    | nil =>
      cases hn : needle with
      | nil => exact absurd hn hne
      | cons x xs => rw [hn] at hc; simp [containsB, isPrefB] at hc
    | cons c rest =>
      rw [replaceAll_cons]
      by_cases hp : isPrefB needle (c :: rest) = true
      · rw [if_pos hp]
        exact containsB_mono_l repl repl _ (containsB_pref repl repl (prefB_refl repl))
      · rw [if_neg hp]
        have hc' : containsB needle rest = true := by
          simp only [containsB, Bool.or_eq_true] at hc
          cases hc with
          | inl h => exact absurd h hp
          | inr h => exact h
        have h1 := ih rest (by simp at hs; omega) hc'
        simp only [containsB, Bool.or_eq_true]
        exact Or.inr h1

/-- A proper tail of the needle that is a prefix of the replacement output was
already a prefix of the input: replacement never manufactures new needle
tails at the front.  Side condition: no proper tail of the needle is a
prefix of the replacement. -/
theorem replaceAll_tail_transfer (needle repl : Str)
    (hlen : needle.length ≤ repl.length)
    (hF3 : ∀ k, 0 < k → k < needle.length → isPrefB (needle.drop k) repl = false) :
    ∀ N s, s.length ≤ N → ∀ k, 0 < k → k < needle.length →
      isPrefB (needle.drop k) (replaceAll needle repl s) = true →
      isPrefB (needle.drop k) s = true := by
  intro N
  induction N with
  | zero =>
    intro s hs k hk0 hk h
    have : s = [] := List.eq_nil_of_length_eq_zero (Nat.le_zero.mp hs)
    subst this
    rw [replaceAll_nil] at h
    exact h
  | succ n ih =>
    intro s hs k hk0 hk h
    cases s with
    | nil => rw [replaceAll_nil] at h; exact h
    | cons c rest =>
      rw [replaceAll_cons] at h
      by_cases hp : isPrefB needle (c :: rest) = true
      · rw [if_pos hp] at h
        exfalso
        have hdl : (needle.drop k).length ≤ repl.length := by
          simp only [List.length_drop]
          omega
        have := prefB_of_append_le _ repl _ h hdl
        rw [hF3 k hk0 hk] at this
        exact Bool.noConfusion this
      · rw [if_neg hp] at h
        rw [List.drop_eq_getElem_cons hk] at h ⊢
        simp only [isPrefB, Bool.and_eq_true, decide_eq_true_eq] at h ⊢
        refine ⟨h.1, ?_⟩
        by_cases hk1 : k + 1 < needle.length
        · exact ih rest (by simp at hs; omega) (k + 1) (by omega) hk1 h.2
        · have hd : needle.drop (k + 1) = [] := List.drop_eq_nil_of_le (by omega)
          rw [hd]
          simp [isPrefB]

/-- The needle does not occur in the output of `replaceAll needle repl s`,
given that the needle cannot overlap the replacement: it is not inside the
replacement, no suffix of the replacement starts the needle, and no proper
tail of the needle starts the replacement. -/
theorem replaceAll_no_needle_aux (needle repl : Str)
    (hne : needle ≠ []) (hlen : needle.length ≤ repl.length)
    (hF1 : containsB needle repl = false)
    (hF2 : ∀ i, i < repl.length → isPrefB (repl.drop i) needle = false)
    (hF3 : ∀ k, 0 < k → k < needle.length → isPrefB (needle.drop k) repl = false) :
    ∀ N s, s.length ≤ N → containsB needle (replaceAll needle repl s) = false := by
  intro N
  induction N with
  | zero =>
    intro s hs
    have : s = [] := List.eq_nil_of_length_eq_zero (Nat.le_zero.mp hs)
    subst this
    rw [replaceAll_nil]
    cases hn : needle with
    | nil => exact absurd hn hne
    | cons x xs => simp [containsB, isPrefB]
  | succ n ih =>
    intro s hs
    cases s with
    | nil =>
      rw [replaceAll_nil]
      cases hn : needle with
      | nil => exact absurd hn hne
      | cons x xs => simp [containsB, isPrefB]
    | cons c rest =>
      rw [replaceAll_cons]
      have hn1 : 1 ≤ needle.length := List.length_pos.mpr hne
      by_cases hp : isPrefB needle (c :: rest) = true
      · rw [if_pos hp]
        set out := replaceAll needle repl (rest.drop (needle.length - 1)) with hout
        have hihout : containsB needle out = false :=
          ih (rest.drop (needle.length - 1)) (by simp [List.length_drop]; simp at hs; omega)
        by_contra hcon
        rw [Bool.not_eq_false] at hcon
        obtain ⟨i, hi⟩ := (containsB_iff needle (repl ++ out)).mp hcon
        rcases Nat.lt_or_ge i repl.length with hir | hir
        · rw [List.drop_append_of_le_length (Nat.le_of_lt hir)] at hi
          rcases Nat.lt_or_ge (repl.drop i).length needle.length with hrl | hrl
          · have hsp := prefB_append_split (repl.drop i) needle out hi (Nat.le_of_lt hrl)
            have := hF2 i hir
            rw [hsp.1] at this
            exact Bool.noConfusion this
          · have hpre := prefB_of_append_le needle (repl.drop i) out hi (by simpa using hrl)
            have : containsB needle repl = true := (containsB_iff needle repl).mpr ⟨i, hpre⟩
            rw [hF1] at this
            exact Bool.noConfusion this
        · have hd : (repl ++ out).drop i = out.drop (i - repl.length) := by
            rw [show i = repl.length + (i - repl.length) from by omega, List.drop_append]
            congr 1
            omega
          rw [hd] at hi
          have : containsB needle out = true := (containsB_iff needle out).mpr ⟨i - repl.length, hi⟩
          rw [hihout] at this
          exact Bool.noConfusion this
      · rw [if_neg hp]
        set out := replaceAll needle repl rest with hout
        have hihout : containsB needle out = false := ih rest (by simp at hs; omega)
        simp only [containsB, Bool.or_eq_true, Bool.or_eq_false_iff]
        refine ⟨?_, hihout⟩
        by_contra hcon
        rw [Bool.not_eq_false] at hcon
        cases hn : needle with
        | nil => exact absurd hn hne
        | cons n0 ntail =>
          rw [hn] at hcon
          simp only [isPrefB, Bool.and_eq_true, decide_eq_true_eq] at hcon
          have htail : isPrefB ntail rest = true := by
            by_cases hk1 : 1 < needle.length
            · have harg : isPrefB (needle.drop 1) (replaceAll needle repl rest) = true := by
                rw [← hout, hn]
                simpa using hcon.2
              have ht := replaceAll_tail_transfer needle repl hlen hF3 n rest
                (by simp at hs; omega) 1 (by omega) hk1 harg
              rw [hn] at ht
              simpa using ht
            · have hnt : ntail = [] := by
                have : needle.length = 1 := by omega
                rw [hn] at this
                simpa using this
              rw [hnt]
              simp [isPrefB]
          have : isPrefB needle (c :: rest) = true := by
            rw [hn]
            simp only [isPrefB, Bool.and_eq_true, decide_eq_true_eq]
            exact ⟨hcon.1, htail⟩
          exact hp this

theorem replaceAll_no_needle (needle repl : Str)
    (hne : needle ≠ []) (hlen : needle.length ≤ repl.length)
    (hF1 : containsB needle repl = false)
    (hF2 : ∀ i, i < repl.length → isPrefB (repl.drop i) needle = false)
    (hF3 : ∀ k, 0 < k → k < needle.length → isPrefB (needle.drop k) repl = false)
    (s : Str) : containsB needle (replaceAll needle repl s) = false :=
  replaceAll_no_needle_aux needle repl hne hlen hF1 hF2 hF3 s.length s le_rfl

/- ## Instantiation at the script's import strings -/

theorem legacy_ne_nil : legacyImport ≠ [] := by decide

theorem legacy_nlFree : nlFree legacyImport = true := by decide

theorem userImport_nlFree : nlFree userImport = true := by decide

theorem serviceImport_nlFree : nlFree serviceImport = true := by decide

theorem noLegacy_user (s : Str) :
    containsB legacyImport (replaceAll legacyImport userImport s) = false := by
  refine replaceAll_no_needle legacyImport userImport legacy_ne_nil (by decide) (by decide) ?_ ?_ s
  · have h : ∀ i, i < userImport.length → isPrefB (userImport.drop i) legacyImport = false := by
      decide
    exact fun i hi => h i hi
  · have h : ∀ k, k < legacyImport.length → 0 < k →
        isPrefB (legacyImport.drop k) userImport = false := by
      decide
    exact fun k hk0 hk => h k hk hk0

theorem noLegacy_service (s : Str) :
    containsB legacyImport (replaceAll legacyImport serviceImport s) = false := by
  refine replaceAll_no_needle legacyImport serviceImport legacy_ne_nil (by decide) (by decide) ?_ ?_ s
  · have h : ∀ i, i < serviceImport.length → isPrefB (serviceImport.drop i) legacyImport = false := by
      decide
    exact fun i hi => h i hi
  · have h : ∀ k, k < legacyImport.length → 0 < k →
        isPrefB (legacyImport.drop k) serviceImport = false := by
      decide
    exact fun k hk0 hk => h k hk hk0

theorem hasUser_of_legacy (s : Str) (h : containsB legacyImport s = true) :
    containsB userImport (replaceAll legacyImport userImport s) = true :=
  replaceAll_has_repl_aux legacyImport userImport legacy_ne_nil s.length s le_rfl h

theorem hasService_of_legacy (s : Str) (h : containsB legacyImport s = true) :
    containsB serviceImport (replaceAll legacyImport serviceImport s) = true :=
  replaceAll_has_repl_aux legacyImport serviceImport legacy_ne_nil s.length s le_rfl h

theorem lenLt_user (s : Str) (h : containsB legacyImport s = true) :
    s.length < (replaceAll legacyImport userImport s).length :=
  replaceAll_len_lt legacyImport userImport legacy_ne_nil (by decide) s h

theorem lenLt_service (s : Str) (h : containsB legacyImport s = true) :
    s.length < (replaceAll legacyImport serviceImport s).length :=
  replaceAll_len_lt legacyImport serviceImport legacy_ne_nil (by decide) s h

/- ## Structure of the two substitutions -/

theorem leadWs_le (s : Str) : leadWs s ≤ s.length := by
  induction s with
  | nil => simp [leadWs]
  | cons c r ih =>
    simp only [leadWs, List.length_cons]
    split
    · omega
    · omega

theorem take_leadWs_ws (s : Str) : (s.take (leadWs s)).all wsChar = true := by
  induction s with
  | nil => simp [leadWs]
  | cons c r ih =>
    simp only [leadWs]
    split
    · next hw => simpa [List.take, List.all_cons, hw] using ih
    · simp

theorem leadWs_ws_append (w : Str) (hw : w.all wsChar = true) (t : Char) (ts : Str)
    (ht : wsChar t = false) : leadWs (w ++ t :: ts) = w.length := by
  induction w with
  | nil => simp [leadWs, ht]
  | cons c w' ih =>
    simp only [List.all_cons, Bool.and_eq_true] at hw
    simp [leadWs, hw.1, ih hw.2]

theorem trySplit_eq (s a b : Str) (h : trySplit s = some (a, b)) :
    s = a ++ b ∧ a.getLast? = some '\n' ∧
      ∃ w, a = '\n' :: (w ++ tryLit) ∧ w ≠ [] ∧ w.all wsChar = true := by
  cases s with
  | nil => simp [trySplit] at h
  | cons c rest =>
    simp only [trySplit] at h
    split at h
    case isFalse => exact absurd h (by simp)
    case isTrue hc =>
      obtain ⟨hcc, hm⟩ := hc
      subst hcc
      injection h with h
      injection h with ha hb
      rw [tryMatchAt, Bool.and_eq_true, decide_eq_true_eq] at hm
      obtain ⟨hk1, hpre⟩ := hm
      obtain ⟨t, htdec⟩ := (prefB_iff tryLit (rest.drop (leadWs rest))).mp hpre
      have htlen : t = rest.drop (leadWs rest + tryLit.length) := by
        have hcg := congrArg (List.drop tryLit.length) htdec
        rw [List.drop_left] at hcg
        rw [← hcg, List.drop_drop]
      constructor
      · rw [← ha, ← hb]
        have : rest = rest.take (leadWs rest) ++ (tryLit ++ t) := by
          rw [← htdec]
          exact (List.take_append_drop (leadWs rest) rest).symm
        rw [htlen] at this
        simp only [List.cons_append, List.append_assoc]
        rw [← this]
      constructor
      · rw [← ha]
        have h1 : ('\n' :: (rest.take (leadWs rest) ++ tryLit)) =
            ('\n' :: rest.take (leadWs rest)) ++ tryLit := by simp
        rw [h1, lastQ_append _ tryLit (by decide)]
        decide
      · refine ⟨rest.take (leadWs rest), by rw [← ha], ?_, take_leadWs_ws rest⟩
        have hlen : (rest.take (leadWs rest)).length = leadWs rest := by
          rw [List.length_take]
          have := leadWs_le rest
          omega
        intro hnil
        rw [hnil] at hlen
        simp at hlen
        omega

theorem subTry_id (ins : Str) : ∀ s, hasTryMatch s = false → subTry ins s = s := by
  intro s
  induction s with
  | nil => intro _; rfl
  | cons c rest ih =>
    intro h
    simp only [hasTryMatch, Bool.or_eq_false_iff] at h
    have hnone : trySplit (c :: rest) = none := Option.not_isSome_iff_eq_none.mp (by simp [h.1])
    simp only [subTry, hnone]
    rw [ih h.2]

theorem subTry_fires (ins : Str) : ∀ s, hasTryMatch s = true →
    ∃ a b, s = a ++ b ∧ subTry ins s = a ++ (ins ++ b) ∧ a.getLast? = some '\n' ∧
      ∃ a0 w, a = a0 ++ '\n' :: (w ++ tryLit) ∧ w ≠ [] ∧ w.all wsChar = true := by
  intro s
  induction s with
  | nil => intro h; simp [hasTryMatch] at h
  | cons c rest ih =>
    intro h
    cases hts : trySplit (c :: rest) with
    | some ab =>
      obtain ⟨a, b⟩ := ab
      obtain ⟨h1, h2, w, hw1, hw2, hw3⟩ := trySplit_eq (c :: rest) a b hts
      refine ⟨a, b, h1, ?_, h2, [], w, by simpa using hw1, hw2, hw3⟩
      simp [subTry, hts]
    | none =>
      simp only [hasTryMatch, Bool.or_eq_true, hts] at h
      have h' : hasTryMatch rest = true := by
        cases h with
        | inl h => simp at h
        | inr h => exact h
      obtain ⟨a, b, h1, h2, h3, a0, w, hw1, hw2, hw3⟩ := ih h'
      have hane : a ≠ [] := by
        rw [hw1]
        intro hx
        exact absurd (List.append_eq_nil.mp hx).2 (by simp)
      refine ⟨c :: a, b, by simp [h1], ?_, ?_, c :: a0, w, by simp [hw1], hw2, hw3⟩
      · simp only [subTry, hts]
        rw [h2]
        simp
      · have : (c :: a) = [c] ++ a := rfl
        rw [this, lastQ_append [c] a hane]
        exact h3

theorem funcSplit_eq (s a b : Str) (h : funcSplit s = some (a, b)) :
    s = a ++ b ∧ a.getLast? = some '\n' := by
  simp only [funcSplit] at h
  split at h
  case isFalse => exact absurd h (by simp)
  case isTrue hp1 =>
    split at h
    case isFalse => exact absurd h (by simp)
    case isTrue hp2 =>
      split at h
      case isFalse => exact absurd h (by simp)
      case isTrue hp3 =>
        set t1 := s.drop asyncHdrLit.length with ht1
        set w := countWord t1 with hw
        set t2 := t1.drop (w + 1) with ht2
        set n := countNonR t2 with hn
        injection h with h
        injection h with ha hb
        obtain ⟨t, htdec⟩ := (prefB_iff closeLit (t2.drop n)).mp hp3
        have htv : t = t2.drop (n + closeLit.length) := by
          have hcg := congrArg (List.drop closeLit.length) htdec
          rw [List.drop_left] at hcg
          rw [← hcg, List.drop_drop]
        have e1 : t2.drop n = s.drop (asyncHdrLit.length + w + 1 + n) := by
          rw [ht2, List.drop_drop, ht1, List.drop_drop]
          congr 1
          omega
        have e2 : s.drop (asyncHdrLit.length + w + 1 + n) =
            closeLit ++ t2.drop (n + closeLit.length) := by
          rw [← e1, htdec, htv]
        constructor
        · rw [← ha, ← hb]
          conv_lhs => rw [← List.take_append_drop (asyncHdrLit.length + w + 1 + n) s]
          rw [e2]
          simp [List.append_assoc]
        · rw [← ha]
          rw [lastQ_append _ closeLit (by decide)]
          decide

theorem subFunc_id (ins : Str) : ∀ s, hasFuncMatch s = false → subFunc ins s = s := by
  intro s
  induction s with
  | nil => intro _; rfl
  | cons c rest ih =>
    intro h
    simp only [hasFuncMatch, Bool.or_eq_false_iff] at h
    have hnone : funcSplit (c :: rest) = none := Option.not_isSome_iff_eq_none.mp (by simp [h.1])
    simp only [subFunc, hnone]
    rw [ih h.2]

theorem subFunc_fires (ins : Str) : ∀ s, hasFuncMatch s = true →
    ∃ a b, s = a ++ b ∧ subFunc ins s = a ++ (ins ++ b) ∧ a.getLast? = some '\n' := by
  intro s
  induction s with
  | nil => intro h; simp [hasFuncMatch] at h
  | cons c rest ih =>
    intro h
    cases hts : funcSplit (c :: rest) with
    | some ab =>
      obtain ⟨a, b⟩ := ab
      obtain ⟨h1, h2⟩ := funcSplit_eq (c :: rest) a b hts
      refine ⟨a, b, h1, ?_, h2⟩
      simp [subFunc, hts]
    | none =>
      simp only [hasFuncMatch, Bool.or_eq_true, hts] at h
      have h' : hasFuncMatch rest = true := by
        cases h with
        | inl h => simp at h
        | inr h => exact h
      obtain ⟨a, b, h1, h2, h3⟩ := ih h'
      have hane : a ≠ [] := by
        intro hx
        rw [hx] at h3
        simp at h3
      refine ⟨c :: a, b, by simp [h1], ?_, ?_⟩
      · simp only [subFunc, hts]
        rw [h2]
        simp
      · have hca : (c :: a) = [c] ++ a := rfl
        rw [hca, lastQ_append [c] a hane]
        exact h3

/- ## Preservation of (non-)occurrence through a single insertion -/

theorem contains_insert_eq (p a ins b : Str) (hnl : nlFree p = true)
    (hA : a.getLast? = some '\n') (hIns : ins.getLast? = some '\n') :
    containsB p (a ++ (ins ++ b)) = (containsB p ins || containsB p (a ++ b)) := by
  rw [containsB_append_nl p hnl a (ins ++ b) hA,
      containsB_append_nl p hnl ins b hIns,
      containsB_append_nl p hnl a b hA]
  cases containsB p a <;> cases containsB p ins <;> cases containsB p b <;> rfl

theorem subTry_shape (ins c1 : Str) :
    subTry ins c1 = c1 ∨
      ∃ a b, c1 = a ++ b ∧ subTry ins c1 = a ++ (ins ++ b) ∧ a.getLast? = some '\n' := by
  cases hm : hasTryMatch c1 with
  | false => exact Or.inl (subTry_id ins c1 hm)
  | true =>
    obtain ⟨a, b, h1, h2, h3, _⟩ := subTry_fires ins c1 hm
    exact Or.inr ⟨a, b, h1, h2, h3⟩

theorem subFunc_shape (ins c1 : Str) :
    subFunc ins c1 = c1 ∨
      ∃ a b, c1 = a ++ b ∧ subFunc ins c1 = a ++ (ins ++ b) ∧ a.getLast? = some '\n' := by
  cases hm : hasFuncMatch c1 with
  | false => exact Or.inl (subFunc_id ins c1 hm)
  | true =>
    obtain ⟨a, b, h1, h2, h3⟩ := subFunc_fires ins c1 hm
    exact Or.inr ⟨a, b, h1, h2, h3⟩

theorem out_facts (content c1 out ins R : Str)
    (hsplit : out = c1 ∨
      ∃ a b, c1 = a ++ b ∧ out = a ++ (ins ++ b) ∧ a.getLast? = some '\n')
    (hins_last : ins.getLast? = some '\n')
    (hins_noleg : containsB legacyImport ins = false)
    (hRnl : nlFree R = true)
    (hno : containsB legacyImport c1 = false)
    (hR : containsB R c1 = true)
    (hlen : content.length < c1.length) :
    containsB legacyImport out = false ∧ containsB R out = true ∧
      content.length < out.length := by
  rcases hsplit with rfl | ⟨a, b, hab, hout, hlast⟩
  · exact ⟨hno, hR, hlen⟩
  · rw [hout]
    refine ⟨?_, ?_, ?_⟩
    · rw [contains_insert_eq legacyImport a ins b legacy_nlFree hlast hins_last, hins_noleg]
      rw [hab] at hno
      rw [hno]
      rfl
    · rw [contains_insert_eq R a ins b hRnl hlast hins_last]
      rw [hab] at hR
      rw [hR]
      simp
    · have h1 : (a ++ (ins ++ b)).length = c1.length + ins.length := by
        rw [hab]
        simp only [List.length_append]
        omega
      omega

/-- Master fact: on any content containing the legacy import, the user- or
service-mode rewrite removes the legacy import, introduces the mode-specific
replacement import, and strictly lengthens the text. -/
theorem applyAuth_fixes (auth content : Str)
    (hauth : auth = userS ∨ auth = serviceS)
    (hleg : containsB legacyImport content = true) :
    containsB legacyImport (applyAuth auth content) = false ∧
    containsB (importFor auth) (applyAuth auth content) = true ∧
    content.length < (applyAuth auth content).length := by
  rcases hauth with rfl | rfl
  · have hifu : importFor userS = userImport := by decide
    rw [hifu]
    unfold applyAuth
    rw [if_pos rfl]
    set c1 := replaceAll legacyImport userImport content with hc1
    have hno : containsB legacyImport c1 = false := noLegacy_user content
    have hR : containsB userImport c1 = true := hasUser_of_legacy content hleg
    have hlen : content.length < c1.length := lenLt_user content hleg
    cases hfu : findUsageStart c1 with
    | none =>
      simp only [hfu]
      exact ⟨hno, hR, hlen⟩
    | some p =>
      simp only [hfu]
      by_cases he : anyExportLine (c1.take p) = true
      · rw [if_pos he]
        by_cases ht : containsB twoSpTry c1 = true
        · rw [if_pos ht]
          exact out_facts content c1 _ userTryIns userImport (subTry_shape userTryIns c1)
            (by decide) (by decide) userImport_nlFree hno hR hlen
        · rw [if_neg ht]
          exact out_facts content c1 _ userFnIns userImport (subFunc_shape userFnIns c1)
            (by decide) (by decide) userImport_nlFree hno hR hlen
      · rw [if_neg he]
        exact ⟨hno, hR, hlen⟩
  · have hifs : importFor serviceS = serviceImport := by decide
    rw [hifs]
    unfold applyAuth
    rw [if_neg (by decide), if_pos rfl]
    set c1 := replaceAll legacyImport serviceImport content with hc1
    have hno : containsB legacyImport c1 = false := noLegacy_service content
    have hR : containsB serviceImport c1 = true := hasService_of_legacy content hleg
    have hlen : content.length < c1.length := lenLt_service content hleg
    cases hfu : findUsageStart c1 with
    | none =>
      simp only [hfu]
      exact ⟨hno, hR, hlen⟩
    | some p =>
      simp only [hfu]
      by_cases he : anyExportLine (c1.take p) = true
      · rw [if_pos he]
        by_cases ht : containsB twoSpTry c1 = true
        · rw [if_pos ht]
          exact out_facts content c1 _ serviceTryIns serviceImport (subTry_shape serviceTryIns c1)
            (by decide) (by decide) serviceImport_nlFree hno hR hlen
        · rw [if_neg ht]
          exact out_facts content c1 _ serviceFnIns serviceImport (subFunc_shape serviceFnIns c1)
            (by decide) (by decide) serviceImport_nlFree hno hR hlen
      · rw [if_neg he]
        exact ⟨hno, hR, hlen⟩

/- ## fix_file level facts -/

theorem fixFile_no_legacy (content auth : Str) (h : containsB legacyImport content = false) :
    fixFile (some content) auth = ⟨true, none, Msg.alreadyFixed⟩ := by
  simp [fixFile, h]

theorem fixFile_changed (content auth : Str)
    (hleg : containsB legacyImport content = true)
    (hne : applyAuth auth content ≠ content) :
    fixFile (some content) auth = ⟨true, some (applyAuth auth content), Msg.fixed⟩ := by
  simp [fixFile, hleg, hne]

theorem applyAuth_other (auth content : Str) (h1 : ¬ auth = userS) (h2 : ¬ auth = serviceS) :
    applyAuth auth content = content := by
  unfold applyAuth
  rw [if_neg h1, if_neg h2]

theorem fixFile_write_inv (content auth : Str) (b : Bool) (w : Str) (m : Msg)
    (h : fixFile (some content) auth = ⟨b, some w, m⟩) :
    containsB legacyImport content = true ∧ w = applyAuth auth content ∧
      applyAuth auth content ≠ content ∧ b = true ∧ m = Msg.fixed := by
  simp only [fixFile] at h
  by_cases hleg : containsB legacyImport content = true
  · rw [if_pos hleg] at h
    by_cases heq : applyAuth auth content = content
    · rw [if_pos heq] at h
      simp at h
    · rw [if_neg heq] at h
      simp only [FixResult.mk.injEq, Option.some.injEq] at h
      exact ⟨hleg, h.2.1.symm, heq, h.1.symm, h.2.2.symm⟩
  · rw [if_neg hleg] at h
    simp at h

/- ## Driver-loop facts -/

theorem runAll_count (l : List (Str × Str)) :
    ∀ fs, (runAll l fs).1 + (runAll l fs).2 = l.length := by
  induction l with
  | nil => intro fs; rfl
  | cons pa rest ih =>
    intro fs
    obtain ⟨p, a⟩ := pa
    simp only [runAll, List.length_cons]
    split
    · have := ih (updFs fs p (fixFile (fs p) a))
      simp only []
      omega
    · have := ih (updFs fs p (fixFile (fs p) a))
      simp only []
      omega

theorem runAll_append (l1 : List (Str × Str)) :
    ∀ (l2 : List (Str × Str)) (fs : Str → Option Str),
      runAll (l1 ++ l2) fs =
        ((runAll l1 fs).1 + (runAll l2 (threadFs l1 fs)).1,
         (runAll l1 fs).2 + (runAll l2 (threadFs l1 fs)).2) := by
  induction l1 with
  | nil =>
    intro l2 fs
    simp [runAll, threadFs]
  | cons pa rest ih =>
    intro l2 fs
    obtain ⟨p, a⟩ := pa
    simp only [List.cons_append, runAll, threadFs, List.append_eq]
    rw [ih l2 (updFs fs p (fixFile (fs p) a))]
    split
    · rw [Prod.ext_iff]
      constructor <;> simp <;> omega
    · rw [Prod.ext_iff]
      constructor <;> simp <;> omega

/- ## A structural try-opening guarantees a regex match -/

theorem hasTryMatch_of_decomp (w Y : Str) (hw1 : w ≠ []) (hw2 : w.all wsChar = true) :
    ∀ X, hasTryMatch (X ++ '\n' :: (w ++ (tryLit ++ Y))) = true := by
  intro X
  induction X with
  | nil =>
    simp only [List.nil_append, hasTryMatch, Bool.or_eq_true]
    left
    have htd : tryLit ++ Y = 't' :: ("ry \x7b\n".data ++ Y) := by
      rw [show tryLit = 't' :: "ry \x7b\n".data from by decide]
      rfl
    have hlw : leadWs (w ++ (tryLit ++ Y)) = w.length := by
      rw [htd]
      exact leadWs_ws_append w hw2 't' _ (by decide)
    have hm : tryMatchAt (w ++ (tryLit ++ Y)) = true := by
      rw [tryMatchAt, hlw, Bool.and_eq_true, decide_eq_true_eq]
      constructor
      · have : 0 < w.length := List.length_pos.mpr hw1
        omega
      · rw [List.drop_left]
        exact prefB_self_append tryLit Y
    simp [trySplit, hm]
  | cons x X' ih =>
    simp only [List.cons_append, hasTryMatch, Bool.or_eq_true]
    exact Or.inr ih

/- ## The claims -/

/-- Claim C5: for every existing input file whose content does not contain
the legacy import string, processing leaves the file unchanged (no write
occurs) and the file is reported successful (`fix_file` returns `True`,
printing the already-fixed report). -/
theorem claim_c5 (content auth : Str) (h : containsB legacyImport content = false) :
    fixFile (some content) auth = ⟨true, none, Msg.alreadyFixed⟩ :=
  fixFile_no_legacy content auth h

/-- Claim C5, witness: a concrete file without the legacy import is reported
successful and not written. -/
theorem claim_c5_witness :
    containsB legacyImport ("export async function GET() \x7b\n\x7d\n").data = false ∧
      fixFile (some ("export async function GET() \x7b\n\x7d\n").data) userS =
        ⟨true, none, Msg.alreadyFixed⟩ :=
  ⟨by decide, claim_c5 ("export async function GET() \x7b\n\x7d\n").data userS (by decide)⟩

/-- Claim C7: for every task whose path does not exist on disk, `fix_file`
prints the file-not-found report, returns `False`, raises no exception (it
is a total function of the abstracted filesystem), and performs no write. -/
theorem claim_c7 (auth : Str) : fixFile none auth = ⟨false, none, Msg.notFound⟩ := rfl

/-- Claim C8: processing one task never aborts the remaining tasks: running
any task list split as `l1 ++ l2` processes all of `l2` (against the
filesystem state left by `l1`) and adds the two tallies, whatever the
individual results of `l1` were; `fix_file` itself is a total function into
`FixResult`, so no exception crosses a task boundary. -/
theorem claim_c8 (l1 l2 : List (Str × Str)) (fs : Str → Option Str) :
    runAll (l1 ++ l2) fs =
      ((runAll l1 fs).1 + (runAll l2 (threadFs l1 fs)).1,
       (runAll l1 fs).2 + (runAll l2 (threadFs l1 fs)).2) :=
  runAll_append l1 l2 fs

/-- Claim C9: every run processes the whole static 20-entry task list: for
any filesystem, `fixed_count + failed_count` equals the number of entries of
`files_to_fix`, which is 20. -/
theorem claim_c9 (fs : Str → Option Str) :
    (runAll filesToFix fs).1 + (runAll filesToFix fs).2 = 20 ∧ filesToFix.length = 20 :=
  ⟨by rw [runAll_count filesToFix fs]; decide, by decide⟩

/-- Claim C6: the rewrite is idempotent with respect to the import line: if
a first `fix_file` run wrote a file, a second run on the written content
reports it as already fixed, returns `True`, and writes nothing (so the
second-run output equals the first-run output). -/
theorem claim_c6 (content auth out : Str) (b : Bool) (m : Msg)
    (h : fixFile (some content) auth = ⟨b, some out, m⟩) :
    fixFile (some out) auth = ⟨true, none, Msg.alreadyFixed⟩ := by
  obtain ⟨hleg, hw, hne, _, _⟩ := fixFile_write_inv content auth b out m h
  by_cases hu : auth = userS
  · subst hu
    have hfix := applyAuth_fixes userS content (Or.inl rfl) hleg
    rw [hw]
    exact fixFile_no_legacy _ _ hfix.1
  · by_cases hs : auth = serviceS
    · subst hs
      have hfix := applyAuth_fixes serviceS content (Or.inr rfl) hleg
      rw [hw]
      exact fixFile_no_legacy _ _ hfix.1
    · exact absurd (applyAuth_other auth content hu hs) hne

/-- Claim C6, witness: on a concrete file rewritten by a first run, the
second run reports already-fixed, returns `True` and writes nothing. -/
theorem claim_c6_witness :
    fixFile (some ("import \x7b supabase \x7d from \x27@/lib/supabase\x27\n").data) userS =
      ⟨true, some (replaceAll legacyImport userImport
        ("import \x7b supabase \x7d from \x27@/lib/supabase\x27\n").data), Msg.fixed⟩ ∧
    fixFile (some (replaceAll legacyImport userImport
        ("import \x7b supabase \x7d from \x27@/lib/supabase\x27\n").data)) userS =
      ⟨true, none, Msg.alreadyFixed⟩ :=
  ⟨by decide,
   claim_c6 ("import \x7b supabase \x7d from \x27@/lib/supabase\x27\n").data userS
     (replaceAll legacyImport userImport
       ("import \x7b supabase \x7d from \x27@/lib/supabase\x27\n").data)
     true Msg.fixed (by decide)⟩

theorem applyAuth_no_usage (auth content : Str)
    (hauth : auth = userS ∨ auth = serviceS)
    (hnouse : findUsageStart (replaceAll legacyImport (importFor auth) content) = none) :
    applyAuth auth content = replaceAll legacyImport (importFor auth) content := by
  rcases hauth with rfl | rfl
  · rw [show importFor userS = userImport from by decide] at hnouse ⊢
    unfold applyAuth
    rw [if_pos rfl]
    simp only [hnouse]
  · rw [show importFor serviceS = serviceImport from by decide] at hnouse ⊢
    unfold applyAuth
    rw [if_neg (by decide), if_pos rfl]
    simp only [hnouse]

theorem applyAuth_no_insert (auth content : Str)
    (hauth : auth = userS ∨ auth = serviceS)
    (hnotry : containsB twoSpTry (replaceAll legacyImport (importFor auth) content) = false)
    (hnofunc : hasFuncMatch (replaceAll legacyImport (importFor auth) content) = false) :
    applyAuth auth content = replaceAll legacyImport (importFor auth) content := by
  rcases hauth with rfl | rfl
  · rw [show importFor userS = userImport from by decide] at hnotry hnofunc ⊢
    unfold applyAuth
    rw [if_pos rfl]
    cases hfu : findUsageStart (replaceAll legacyImport userImport content) with
    | none => simp only [hfu]
    | some p =>
      simp only [hfu]
      by_cases he : anyExportLine ((replaceAll legacyImport userImport content).take p) = true
      · rw [if_pos he, if_neg (by simp [hnotry])]
        exact subFunc_id _ _ hnofunc
      · rw [if_neg he]
  · rw [show importFor serviceS = serviceImport from by decide] at hnotry hnofunc ⊢
    unfold applyAuth
    rw [if_neg (by decide), if_pos rfl]
    cases hfu : findUsageStart (replaceAll legacyImport serviceImport content) with
    | none => simp only [hfu]
    | some p =>
      simp only [hfu]
      by_cases he : anyExportLine ((replaceAll legacyImport serviceImport content).take p) = true
      · rw [if_pos he, if_neg (by simp [hnotry])]
        exact subFunc_id _ _ hnofunc
      · rw [if_neg he]

/-- Concrete file with the legacy import but no recognizable client usage. -/
def c4in : Str := "import \x7b supabase \x7d from \x27@/lib/supabase\x27\nconst x = 1\n".data

/-- Claim C4, counterexample: on a file whose content contains the legacy
legacy line but never uses the client, `fix_file` still replaces the line,
writes the file, prints the fixed report and returns `True` — it is not
counted as failed, contrary to the claim. -/
theorem claim_c4_counterexample :
    containsB legacyImport c4in = true ∧
    findUsageStart (replaceAll legacyImport userImport c4in) = none ∧
    fixFile (some c4in) userS =
      ⟨true, some (replaceAll legacyImport userImport c4in), Msg.fixed⟩ := by
  refine ⟨by decide, by decide, by decide⟩

/-- Claim C4 (amended): for every existing input file whose content contains
the legacy import string but in which the client-usage pattern is not
matched, the import is still replaced, the changed text is written back, and
`fix_file` reports the file as fixed and returns `True` (it is counted as
failed only when the text comes back unchanged, which cannot happen here). -/
theorem claim_c4_amended (content auth : Str)
    (hauth : auth = userS ∨ auth = serviceS)
    (hleg : containsB legacyImport content = true)
    (hnouse : findUsageStart (replaceAll legacyImport (importFor auth) content) = none) :
    fixFile (some content) auth =
      ⟨true, some (replaceAll legacyImport (importFor auth) content), Msg.fixed⟩ := by
  have happ := applyAuth_no_usage auth content hauth hnouse
  have hfix := applyAuth_fixes auth content hauth hleg
  have hne : applyAuth auth content ≠ content := by
    intro heq
    have hlen := hfix.2.2
    have := congrArg List.length heq
    omega
  rw [← happ]
  exact fixFile_changed content auth hleg hne

/-- Claim C4, witness for the amended claim at a concrete input. -/
theorem claim_c4_witness :
    fixFile (some c4in) userS =
      ⟨true, some (replaceAll legacyImport (importFor userS) c4in), Msg.fixed⟩ :=
  claim_c4_amended c4in userS (Or.inl rfl) (by decide) (by decide)

/-- Concrete file containing the legacy import twice, followed by a
recognizable usage of the client. -/
def c3in : Str :=
  ("import \x7b supabase \x7d from \x27@/lib/supabase\x27\nimport \x7b supabase \x7d from \x27@/lib/supabase\x27\nexport async function GET() \x7b\n  await supabase.from(\x27x\x27)\n\x7d\n").data

/-- Claim C3, counterexample: with two occurrences of the legacy import in
the input (and a recognizable usage following), the replacement import is
present twice in the output, not exactly once. -/
theorem claim_c3_counterexample :
    countOcc legacyImport c3in = 2 ∧
    (findUsageStart (replaceAll legacyImport userImport c3in)).isSome = true ∧
    (fixFile (some c3in) userS).written = some (applyAuth userS c3in) ∧
    countOcc userImport (applyAuth userS c3in) = 2 := by
  refine ⟨by decide, by decide, by decide, by decide⟩

/-- Claim C3 (amended): for every input file whose content contains the
legacy import string and in which a recognizable usage pattern of the legacy
client follows, the output content after processing does not contain the
legacy import string and contains the mode-specific replacement import
string (at least once — one copy per input occurrence of the legacy import,
so exactly once when the input contained it exactly once). -/
theorem claim_c3_amended (content auth : Str)
    (hauth : auth = userS ∨ auth = serviceS)
    (hleg : containsB legacyImport content = true)
    (husage : (findUsageStart (replaceAll legacyImport (importFor auth) content)).isSome = true) :
    fixFile (some content) auth = ⟨true, some (applyAuth auth content), Msg.fixed⟩ ∧
    containsB legacyImport (applyAuth auth content) = false ∧
    containsB (importFor auth) (applyAuth auth content) = true := by
  have hfix := applyAuth_fixes auth content hauth hleg
  have hne : applyAuth auth content ≠ content := by
    intro heq
    have hlen := hfix.2.2
    have := congrArg List.length heq
    omega
  exact ⟨fixFile_changed content auth hleg hne, hfix.1, hfix.2.1⟩

/-- Claim C3, witness for the amended claim at a concrete input. -/
theorem claim_c3_witness :
    fixFile (some c3in) userS = ⟨true, some (applyAuth userS c3in), Msg.fixed⟩ ∧
    containsB legacyImport (applyAuth userS c3in) = false ∧
    containsB (importFor userS) (applyAuth userS c3in) = true :=
  claim_c3_amended c3in userS (Or.inl rfl) (by decide) (by decide)

/-- Concrete file with a tab-indented try block inside a non-async exported
function. -/
def c10in : Str :=
  ("import \x7b supabase \x7d from \x27@/lib/supabase\x27\nexport function GET() \x7b\n\ttry \x7b\n\t\tawait supabase.from(\x27t\x27)\n\t\x7d\n\x7d\n").data

/-- Claim C10: if the legacy import is present and the usage pattern
matches, but the file has no two-space-indented `  try {` and the
function-header fallback pattern (which only matches `export async
function`) matches nowhere — e.g. the only exported declaration is a
non-async `export function` — then no construction statement is inserted:
the file is written with only the import replaced and reported as fixed. -/
theorem claim_c10 (content auth : Str) (p : Nat)
    (hauth : auth = userS ∨ auth = serviceS)
    (hleg : containsB legacyImport content = true)
    (hu : findUsageStart (replaceAll legacyImport (importFor auth) content) = some p)
    (he : anyExportLine ((replaceAll legacyImport (importFor auth) content).take p) = true)
    (hnotry : containsB twoSpTry (replaceAll legacyImport (importFor auth) content) = false)
    (hnofunc : hasFuncMatch (replaceAll legacyImport (importFor auth) content) = false) :
    fixFile (some content) auth =
      ⟨true, some (replaceAll legacyImport (importFor auth) content), Msg.fixed⟩ := by
  have happ := applyAuth_no_insert auth content hauth hnotry hnofunc
  have hfix := applyAuth_fixes auth content hauth hleg
  have hne : applyAuth auth content ≠ content := by
    intro heq
    have hlen := hfix.2.2
    have := congrArg List.length heq
    omega
  rw [← happ]
  exact fixFile_changed content auth hleg hne

/-- Claim C10, witness at a concrete input (match position 85 is the newline
before the tab-indented usage line). -/
theorem claim_c10_witness :
    fixFile (some c10in) userS =
      ⟨true, some (replaceAll legacyImport (importFor userS) c10in), Msg.fixed⟩ :=
  claim_c10 c10in userS 85 (Or.inl rfl) (by decide) (by decide) (by decide) (by decide)
    (by decide)

/-- Claim C1: for every input file containing the legacy import and a usage
of the legacy client inside a two-space-indented try block, with an exported
function declaration preceding the usage, processing with mode "user" yields
content that contains `import { createClient } from '@/utils/supabase/server'`
and the line `const supabase = await createClient()` inserted directly after
the first try-block opening (the text up to and including some `\n<ws>try {\n`,
followed by the inserted construction line). -/
theorem claim_c1 (content X w0 Y : Str) (p : Nat)
    (h1 : containsB legacyImport content = true)
    (hu : findUsageStart (replaceAll legacyImport userImport content) = some p)
    (he : anyExportLine ((replaceAll legacyImport userImport content).take p) = true)
    (ht : replaceAll legacyImport userImport content =
      X ++ '\n' :: (w0 ++ ' ' :: ' ' :: (tryLit ++ Y)))
    (hw : w0.all wsChar = true) :
    ∃ a b, fixFile (some content) userS =
        ⟨true, some (a ++ (userTryIns ++ b)), Msg.fixed⟩ ∧
      replaceAll legacyImport userImport content = a ++ b ∧
      a.getLast? = some '\n' ∧
      (∃ a0 w, a = a0 ++ '\n' :: (w ++ tryLit) ∧ w ≠ [] ∧ w.all wsChar = true) ∧
      containsB userImport (a ++ (userTryIns ++ b)) = true := by
  have hwall : (w0 ++ [' ', ' ']).all wsChar = true := by
    rw [List.all_append, hw]
    decide
  have hdec2 : replaceAll legacyImport userImport content =
      X ++ '\n' :: ((w0 ++ [' ', ' ']) ++ (tryLit ++ Y)) := by
    rw [ht]
    simp
  have htm : hasTryMatch (replaceAll legacyImport userImport content) = true := by
    rw [hdec2]
    exact hasTryMatch_of_decomp (w0 ++ [' ', ' ']) Y (by simp) hwall X
  have h2sp : containsB twoSpTry (replaceAll legacyImport userImport content) = true := by
    refine containsB_of_decomp twoSpTry _ (X ++ '\n' :: w0) ('\n' :: Y) ?_
    rw [ht]
    rw [show twoSpTry = ' ' :: ' ' :: "try \x7b".data from by decide,
        show tryLit = "try \x7b".data ++ ['\n'] from by decide]
    simp
  obtain ⟨a, b, hab, hst, hlast, hstruct⟩ := subTry_fires userTryIns _ htm
  have happly : applyAuth userS content = a ++ (userTryIns ++ b) := by
    unfold applyAuth
    rw [if_pos rfl]
    simp only [hu]
    rw [if_pos he, if_pos h2sp]
    exact hst
  have hlen1 : content.length < (replaceAll legacyImport userImport content).length :=
    lenLt_user content h1
  have hne : applyAuth userS content ≠ content := by
    rw [happly]
    intro heq
    have hl2 := congrArg List.length hab
    have hl3 := congrArg List.length heq
    simp only [List.length_append] at hl2 hl3
    omega
  have hff := fixFile_changed content userS h1 hne
  rw [happly] at hff
  refine ⟨a, b, hff, hab, hlast, hstruct, ?_⟩
  have hR : containsB userImport (replaceAll legacyImport userImport content) = true :=
    hasUser_of_legacy content h1
  rw [hab] at hR
  rw [contains_insert_eq userImport a userTryIns b userImport_nlFree hlast (by decide), hR]
  simp

/-- Claim C2: for the same shape of input file, processing with mode
"service" yields content containing
`import { createServiceRoleClient } from '@/utils/supabase/service-role'`
and the synchronous line `const supabase = createServiceRoleClient()`
inserted directly after the first try-block opening, whereas mode "user"
(claim C1) injects the asynchronous `const supabase = await createClient()`. -/
theorem claim_c2 (content X w0 Y : Str) (p : Nat)
    (h1 : containsB legacyImport content = true)
    (hu : findUsageStart (replaceAll legacyImport serviceImport content) = some p)
    (he : anyExportLine ((replaceAll legacyImport serviceImport content).take p) = true)
    (ht : replaceAll legacyImport serviceImport content =
      X ++ '\n' :: (w0 ++ ' ' :: ' ' :: (tryLit ++ Y)))
    (hw : w0.all wsChar = true) :
    ∃ a b, fixFile (some content) serviceS =
        ⟨true, some (a ++ (serviceTryIns ++ b)), Msg.fixed⟩ ∧
      replaceAll legacyImport serviceImport content = a ++ b ∧
      a.getLast? = some '\n' ∧
      (∃ a0 w, a = a0 ++ '\n' :: (w ++ tryLit) ∧ w ≠ [] ∧ w.all wsChar = true) ∧
      containsB serviceImport (a ++ (serviceTryIns ++ b)) = true ∧
      serviceTryIns ≠ userTryIns := by
  have hwall : (w0 ++ [' ', ' ']).all wsChar = true := by
    rw [List.all_append, hw]
    decide
  have hdec2 : replaceAll legacyImport serviceImport content =
      X ++ '\n' :: ((w0 ++ [' ', ' ']) ++ (tryLit ++ Y)) := by
    rw [ht]
    simp
  have htm : hasTryMatch (replaceAll legacyImport serviceImport content) = true := by
    rw [hdec2]
    exact hasTryMatch_of_decomp (w0 ++ [' ', ' ']) Y (by simp) hwall X
  have h2sp : containsB twoSpTry (replaceAll legacyImport serviceImport content) = true := by
    refine containsB_of_decomp twoSpTry _ (X ++ '\n' :: w0) ('\n' :: Y) ?_
    rw [ht]
    rw [show twoSpTry = ' ' :: ' ' :: "try \x7b".data from by decide,
        show tryLit = "try \x7b".data ++ ['\n'] from by decide]
    simp
  obtain ⟨a, b, hab, hst, hlast, hstruct⟩ := subTry_fires serviceTryIns _ htm
  have happly : applyAuth serviceS content = a ++ (serviceTryIns ++ b) := by
    unfold applyAuth
    rw [if_neg (by decide), if_pos rfl]
    simp only [hu]
    rw [if_pos he, if_pos h2sp]
    exact hst
  have hlen1 : content.length < (replaceAll legacyImport serviceImport content).length :=
    lenLt_service content h1
  have hne : applyAuth serviceS content ≠ content := by
    rw [happly]
    intro heq
    have hl2 := congrArg List.length hab
    have hl3 := congrArg List.length heq
    simp only [List.length_append] at hl2 hl3
    omega
  have hff := fixFile_changed content serviceS h1 hne
  rw [happly] at hff
  refine ⟨a, b, hff, hab, hlast, hstruct, ?_, by decide⟩
  have hR : containsB serviceImport (replaceAll legacyImport serviceImport content) = true :=
    hasService_of_legacy content h1
  rw [hab] at hR
  rw [contains_insert_eq serviceImport a serviceTryIns b serviceImport_nlFree hlast (by decide),
      hR]
  simp

/-- Concrete end-to-end input: legacy import, exported async handler, usage
of the client inside a two-space-indented try block. -/
def c1wIn : Str :=
  ("import \x7b supabase \x7d from \x27@/lib/supabase\x27\nexport async function GET() \x7b\n  try \x7b\n    await supabase.from(\x27t\x27)\n  \x7d\n\x7d\n").data

def c1wX : Str :=
  ("import \x7b createClient \x7d from \x27@/utils/supabase/server\x27\nexport async function GET() \x7b").data

def c2wX : Str :=
  ("import \x7b createServiceRoleClient \x7d from \x27@/utils/supabase/service-role\x27\nexport async function GET() \x7b").data

def cwY : Str := ("    await supabase.from(\x27t\x27)\n  \x7d\n\x7d\n").data

/-- Claim C1, witness: the end-to-end example at a concrete file. -/
theorem claim_c1_witness :
    ∃ a b, fixFile (some c1wIn) userS =
        ⟨true, some (a ++ (userTryIns ++ b)), Msg.fixed⟩ ∧
      replaceAll legacyImport userImport c1wIn = a ++ b ∧
      a.getLast? = some '\n' ∧
      (∃ a0 w, a = a0 ++ '\n' :: (w ++ tryLit) ∧ w ≠ [] ∧ w.all wsChar = true) ∧
      containsB userImport (a ++ (userTryIns ++ b)) = true :=
  claim_c1 c1wIn c1wX [] cwY 92 (by decide) (by decide) (by decide) (by decide) (by decide)

/-- Claim C2, witness: the same concrete file processed in service mode. -/
theorem claim_c2_witness :
    ∃ a b, fixFile (some c1wIn) serviceS =
        ⟨true, some (a ++ (serviceTryIns ++ b)), Msg.fixed⟩ ∧
      replaceAll legacyImport serviceImport c1wIn = a ++ b ∧
      a.getLast? = some '\n' ∧
      (∃ a0 w, a = a0 ++ '\n' :: (w ++ tryLit) ∧ w ≠ [] ∧ w.all wsChar = true) ∧
      containsB serviceImport (a ++ (serviceTryIns ++ b)) = true ∧
      serviceTryIns ≠ userTryIns :=
  claim_c2 c1wIn c2wX [] cwY 109 (by decide) (by decide) (by decide) (by decide) (by decide)
